import Mathlib

/-!
Shallow embedding of the content pipeline of a web-scraper repository:
the semantic chunker, chunk-id generation, the per-document content
indexer, and the incremental batch indexer, together with theorems
settling the specification claims about them.

Strings are modelled as `List Char` (JavaScript strings are sequences of
UTF-16 code units; all string operations used by this code - trim,
slice, lastIndexOf, length, concatenation - act on that sequence).
-/

namespace Scraper

/-- Characters removed by the JavaScript `String.prototype.trim`
(whitespace and line terminators). -/
def isJsWs (c : Char) : Bool :=
  c = ' ' || c = '\t' || c = '\n' || c = '\r' || c = '\x0b' || c = '\x0c' ||
  c = '\u00A0' || c = '\uFEFF' || c = '\u2028' || c = '\u2029'

/-- Drop JS whitespace from the front (left half of `trim`). -/
def trimLeft (l : List Char) : List Char := l.dropWhile isJsWs

/-- Drop JS whitespace from the back (right half of `trim`). -/
def trimRight (l : List Char) : List Char := (l.reverse.dropWhile isJsWs).reverse

/-- JavaScript `s.trim()`. -/
def jsTrim (l : List Char) : List Char := trimRight (trimLeft l)

/-- JavaScript `s.slice(a, b)` for non-negative indices. -/
def jsSlice (l : List Char) (a b : Nat) : List Char := (l.take b).drop a

/-- Boolean test that `l` starts with `sep` (character-wise). -/
def listStartsWith : List Char → List Char → Bool
  | [], _ => true
  | _ :: _, [] => false
  | c :: sep, d :: l => c == d && listStartsWith sep l

/-- Does `sep` occur in `l` starting at position `i`? -/
def matchAt (l sep : List Char) (i : Nat) : Bool := listStartsWith sep (l.drop i)

/-- JavaScript `l.lastIndexOf(sep, fr)`: the largest position `≤ fr` at
which `sep` occurs in `l`, or `none` (the `-1` of the code). -/
def lastIndexOfFrom (l sep : List Char) : Nat → Option Nat
  | 0 => if matchAt l sep 0 then some 0 else none
  | i + 1 => if matchAt l sep (i + 1) then some (i + 1) else lastIndexOfFrom l sep i

/-- `DEFAULT_CHUNK_CONFIG.maxContentLength`. -/
def maxContentLength : Nat := 100000

/-- `DEFAULT_CHUNK_CONFIG.maxChunksPerPage`. -/
def maxChunksPerPage : Nat := 50

/-- `DEFAULT_CHUNK_CONFIG.minChunkLength`. -/
def minChunkLength : Nat := 50

/-- `DEFAULT_CHUNK_CONFIG.chunkSize`. -/
def defaultChunkSize : Nat := 1000

/-- `DEFAULT_CHUNK_CONFIG.chunkOverlap`. -/
def defaultChunkOverlap : Nat := 200

/-- `SEMANTIC_SEPARATORS`, in priority order. -/
def SEMANTIC_SEPARATORS : List (List Char) :=
  [['\n', '\n'], ['\n'], ['.', ' '], ['!', ' '], ['?', ' '], [';', ' '], [',', ' '], [' ']]

/-- The separator search inside `chunkContent`: try each separator in
priority order; the condition `breakPoint > minBreakPosition` of the code with
`minBreakPosition = currentIndex + chunkSize * 0.5` (an exact IEEE
value) is encoded exactly as `2 * breakPoint > 2 * currentIndex +
chunkSize`. Returns `bestBreak = breakPoint + separator.length` for the
first separator whose last occurrence at or before `chunkEnd` qualifies. -/
def findBreakGo (l : List Char) (currentIndex chunkSize chunkEnd : Nat) :
    List (List Char) → Option Nat
  | [] => none
  | sep :: rest =>
    match lastIndexOfFrom l sep chunkEnd with
    | some bp =>
      if 2 * currentIndex + chunkSize < 2 * bp then some (bp + sep.length)
      else findBreakGo l currentIndex chunkSize chunkEnd rest
    | none => findBreakGo l currentIndex chunkSize chunkEnd rest

/-- The full separator search over `SEMANTIC_SEPARATORS`. -/
def findBreak (l : List Char) (currentIndex chunkSize chunkEnd : Nat) : Option Nat :=
  findBreakGo l currentIndex chunkSize chunkEnd SEMANTIC_SEPARATORS

/-- One window end of the chunking loop:
`chunkEnd = min (currentIndex + chunkSize) l.length`, adjusted to the
best semantic break when the window does not already reach the end of
the text (`bestBreak > currentIndex` guards the adjustment, as in the
code). -/
def computeChunkEnd (l : List Char) (currentIndex chunkSize : Nat) : Nat :=
  let chunkEnd := min (currentIndex + chunkSize) l.length
  if chunkEnd < l.length then
    match findBreak l currentIndex chunkSize chunkEnd with
    | some bb => if currentIndex < bb then bb else chunkEnd
    | none => chunkEnd
  else chunkEnd

/-- The `while` loop of `chunkContent`, with explicit fuel. The loop
variable `currentIndex` strictly increases whenever `chunkSize ≥ 1`, so
fuel `l.length` is always sufficient (proved below). In JavaScript
`nextIndex = chunkEnd - chunkOverlap` can be negative; truncated `Nat`
subtraction followed by the `nextIndex ≤ currentIndex` test selects the
same branch in every case, since `currentIndex ≥ 0`. -/
def chunkLoop (l : List Char) (chunkSize chunkOverlap : Nat) :
    Nat → Nat → List (List Char) → List (List Char)
  | 0, _, chunks => chunks
  | fuel + 1, currentIndex, chunks =>
    if currentIndex < l.length then
      let chunkEnd := computeChunkEnd l currentIndex chunkSize
      let chunk := jsTrim (jsSlice l currentIndex chunkEnd)
      let chunks' := if minChunkLength ≤ chunk.length then chunks ++ [chunk] else chunks
      let nextIndex := chunkEnd - chunkOverlap
      let currentIndex' := if nextIndex ≤ currentIndex then chunkEnd else nextIndex
      if maxChunksPerPage ≤ chunks'.length then chunks'
      else chunkLoop l chunkSize chunkOverlap fuel currentIndex' chunks'
    else chunks

/-- `chunkContent(content, chunkSize, chunkOverlap)`: trim, truncate to
`maxContentLength`, return a single chunk (or nothing) when the text
fits in one window, otherwise run the chunking loop. -/
def chunkContent (content : List Char) (chunkSize chunkOverlap : Nat) : List (List Char) :=
  let limitedContent := (jsTrim content).take maxContentLength
  if limitedContent.length ≤ chunkSize then
    if minChunkLength ≤ limitedContent.length then [limitedContent] else []
  else
    chunkLoop limitedContent chunkSize chunkOverlap limitedContent.length 0 []

/-- The character class `[a-zA-Z0-9]` of the sanitizing regex in
`generateChunkId`. -/
def isAlnum (c : Char) : Bool :=
  ('a' ≤ c && c ≤ 'z') || ('A' ≤ c && c ≤ 'Z') || ('0' ≤ c && c ≤ '9')

/-- `url.replace(/https?:\/\//, "")`: a non-global regex replace removes
the first (leftmost) occurrence; at a given position the greedy `s?`
prefers `https://` over `http://`. -/
def stripProtocol : List Char → List Char
  | [] => []
  | c :: rest =>
    if listStartsWith ['h', 't', 't', 'p', 's', ':', '/', '/'] (c :: rest) then rest.drop 7
    else if listStartsWith ['h', 't', 't', 'p', ':', '/', '/'] (c :: rest) then rest.drop 6
    else c :: stripProtocol rest

/-- `generateChunkId(url, chunkIndex, brandSlug)`: strip the protocol,
replace every non-alphanumeric character by `-`, keep the first 50
characters, then build `brandSlug_urlHash_chunk_chunkIndex`. -/
def generateChunkId (url : List Char) (chunkIndex : Nat) (brandSlug : List Char) : List Char :=
  let urlHash := ((stripProtocol url).map fun c => if isAlnum c then c else '-').take 50
  brandSlug ++ ['_'] ++ urlHash ++ ['_', 'c', 'h', 'u', 'n', 'k', '_'] ++
    (Nat.repr chunkIndex).toList

/-- One entry of `ScrapedContent.images`. -/
structure ScrapedImage where
  src : List Char
  alt : Option (List Char)
  title : Option (List Char)
deriving DecidableEq

/-- `ScrapedContent` from `types.ts`; optional fields are `Option`,
`timestamp : number` is an integer capture time. -/
structure ScrapedContent where
  url : List Char
  title : List Char
  content : List Char
  description : Option (List Char)
  timestamp : Int
  images : Option (List ScrapedImage)
deriving DecidableEq

/-- `[content.description, content.content].filter(Boolean).join("\n\n")`:
JavaScript `Boolean` drops both `undefined` and the empty string. -/
def fullContentOf (c : ScrapedContent) : List Char :=
  let descPart : List (List Char) :=
    match c.description with
    | some d => if d.isEmpty then [] else [d]
    | none => []
  let contentPart : List (List Char) := if c.content.isEmpty then [] else [c.content]
  List.intercalate ['\n', '\n'] (descPart ++ contentPart)

/-- `prepareChunkForEmbedding(title, chunk, chunkIndex, totalChunks)`. -/
def prepareChunkForEmbedding (title chunk : List Char) (chunkIndex totalChunks : Nat) :
    List Char :=
  if totalChunks ≤ 1 then title ++ ['\n', '\n'] ++ chunk
  else
    title ++ ['\n', '\n'] ++
      (['[', 'S', 'e', 'c', 't', 'i', 'o', 'n', ' '] ++ (Nat.repr (chunkIndex + 1)).toList ++
        [' ', 'o', 'f', ' '] ++ (Nat.repr totalChunks).toList ++ [']']) ++
      ['\n', '\n'] ++ chunk

/-- The metadata record built per chunk in `indexContent`; the optional
fields are present exactly when the code assigns them. The `images`
field holds the capped image list itself (the code stores its JSON
serialization, which is injective on this data). -/
structure ChunkMetadata where
  url : List Char
  title : List Char
  brandSlug : List Char
  chunkIndex : Nat
  totalChunks : Nat
  timestamp : Int
  contentPreview : List Char
  images : Option (List ScrapedImage)
  imageCount : Option Nat
  description : Option (List Char)
deriving DecidableEq

/-- The vector record sent to the store: id, embedding input, metadata. -/
structure VectorRecord where
  id : List Char
  data : List Char
  metadata : ChunkMetadata
deriving DecidableEq

/-- The metadata of chunk `i` of a document, as assembled in the loop of
`indexContent`: `images`/`imageCount` only on the first chunk (and only
for a non-empty image list); `description` on every chunk whenever the
description of the document is truthy (non-empty). -/
def buildMetadata (c : ScrapedContent) (brandSlug : List Char) (i totalChunks : Nat)
    (chunk : List Char) : ChunkMetadata :=
  let imgs :=
    match c.images with
    | some l => if i = 0 ∧ 0 < l.length then some (l.take 5) else none
    | none => none
  let imgCount :=
    match c.images with
    | some l => if i = 0 ∧ 0 < l.length then some l.length else none
    | none => none
  let desc :=
    match c.description with
    | some d => if d.isEmpty then none else some d
    | none => none
  ⟨c.url, c.title, brandSlug, i, totalChunks, c.timestamp, chunk.take 500, imgs, imgCount, desc⟩

/-- The vector record for chunk `i` of a document. -/
def buildVector (c : ScrapedContent) (brandSlug : List Char) (i totalChunks : Nat)
    (chunk : List Char) : VectorRecord :=
  ⟨generateChunkId c.url i brandSlug,
    prepareChunkForEmbedding c.title chunk i totalChunks,
    buildMetadata c brandSlug i totalChunks chunk⟩

/-- All vector records `indexContent` builds for one document, in chunk
order. -/
def buildVectors (c : ScrapedContent) (brandSlug : List Char) (chunkSize chunkOverlap : Nat) :
    List VectorRecord :=
  let chunks := chunkContent (fullContentOf c) chunkSize chunkOverlap
  chunks.mapIdx fun i chunk => buildVector c brandSlug i chunks.length chunk

/-- The result record of `indexContent`. -/
structure IndexResult where
  success : Bool
  chunksIndexed : Nat
  error : Option (List Char)
deriving DecidableEq

/-- The sequential upsert loop of `indexContent`, with the vector-store
response for the chunk at index `i` given by `upsert i` (`.ok` for a 2xx
response, `.error msg` for a thrown error: non-2xx status, timeout,
network failure). Returns the first captured error, if any, together
with the list of chunk indices actually attempted, in order. -/
def runUpsertLoop (upsert : Nat → Except (List Char) Unit) :
    Nat → Nat → Option (List Char) × List Nat
  | _, 0 => (none, [])
  | i, remaining + 1 =>
    match upsert i with
    | .error e => (some e, [i])
    | .ok _ =>
      let r := runUpsertLoop upsert (i + 1) remaining
      (r.1, i :: r.2)

/-- `indexContent(content, options)`: chunk, then upsert one record per
chunk; a zero-chunk document returns `success: true, chunksIndexed: 0`;
the first error aborts the remaining chunks and is returned as
`success: false, chunksIndexed: 0, error`. The whole body sits in a
`try`/`catch` returning this record, so the function never throws -
modelled by the plain (non-`Except`) return type. -/
def runIndexContent (upsert : Nat → Except (List Char) Unit) (c : ScrapedContent)
    (brandSlug : List Char) (chunkSize chunkOverlap : Nat) : IndexResult × List Nat :=
  let vectors := buildVectors c brandSlug chunkSize chunkOverlap
  if vectors.length = 0 then (⟨true, 0, none⟩, [])
  else
    match runUpsertLoop upsert 0 vectors.length with
    | (some e, attempted) => (⟨false, 0, some e⟩, attempted)
    | (none, attempted) => (⟨true, vectors.length, none⟩, attempted)

/-- The `BatchProgress` snapshot delivered per flush. -/
structure BatchProgress where
  indexedCount : Nat
  failedCount : Nat
  chunksIndexed : Nat
  batchNumber : Nat
  batchUrls : List (List Char)
  batchErrors : List (List Char)
deriving DecidableEq

/-- The mutable fields of an `IncrementalBatchIndexer`, plus two ghost
observers: `oracleIdx` counts the documents handed to `indexContent` so
far (the cursor into the environment oracle), and `flushLog` records the
`BatchProgress` snapshot of every executed flush, in order (one entry
per `flushBuffer` run, i.e. per delivery to `onProgress`). -/
structure IndexerState where
  buffer : List ScrapedContent
  totalIndexed : Nat
  totalFailed : Nat
  totalChunks : Nat
  batchNumber : Nat
  allErrors : List (List Char)
  oracleIdx : Nat
  flushLog : List BatchProgress
deriving DecidableEq

/-- The fresh state of a newly constructed indexer. -/
def initialState : IndexerState :=
  ⟨[], 0, 0, 0, 0, [], 0, []⟩

/-- Per-batch accumulators of the inner loop of `flushBuffer`, plus the
advanced oracle cursor. -/
structure BatchTotals where
  indexed : Nat
  failed : Nat
  chunks : Nat
  urls : List (List Char)
  errors : List (List Char)
  cursor : Nat
deriving DecidableEq

/-- The inner loop of `flushBuffer`: run `indexContent` on each document
of the batch in order; a success bumps `batchIndexed`, adds its chunk
count and records the URL, a failure bumps `batchFailed` and records
`url: error` when an error message is present. `oracle k` is the
`IndexResult` of the `k`-th `indexContent` call in the lifetime of the indexer (`indexContent` itself never throws, so the surrounding
`catch` arm is dead code). -/
def processBatch (oracle : Nat → IndexResult) : List ScrapedContent → Nat → BatchTotals
  | [], cursor => ⟨0, 0, 0, [], [], cursor⟩
  | c :: rest, cursor =>
    let r := oracle cursor
    let t := processBatch oracle rest (cursor + 1)
    if r.success then
      ⟨t.indexed + 1, t.failed, t.chunks + r.chunksIndexed, c.url :: t.urls, t.errors, t.cursor⟩
    else
      let newErrors :=
        match r.error with
        | some e => (c.url ++ [':', ' '] ++ e) :: t.errors
        | none => t.errors
      ⟨t.indexed, t.failed + 1, t.chunks, t.urls, newErrors, t.cursor⟩

/-- `flushBuffer()`: return unchanged on an empty buffer; otherwise
increment `batchNumber`, snapshot and clear the buffer, index the batch,
merge the per-batch counters into the cumulative ones and deliver one
`BatchProgress` snapshot (recorded in the ghost `flushLog`). -/
def flushBuffer (oracle : Nat → IndexResult) (s : IndexerState) : IndexerState :=
  if s.buffer.isEmpty then s
  else
    let bn := s.batchNumber + 1
    let t := processBatch oracle s.buffer s.oracleIdx
    let progress : BatchProgress :=
      ⟨s.totalIndexed + t.indexed, s.totalFailed + t.failed, s.totalChunks + t.chunks,
        bn, t.urls, t.errors⟩
    ⟨[], s.totalIndexed + t.indexed, s.totalFailed + t.failed, s.totalChunks + t.chunks,
      bn, s.allErrors ++ t.errors, t.cursor, s.flushLog ++ [progress]⟩

/-- `add(content)`: push onto the buffer, then flush when the buffer has
reached `batchSize`. -/
def addOp (oracle : Nat → IndexResult) (batchSize : Nat) (s : IndexerState)
    (c : ScrapedContent) : IndexerState :=
  let s' : IndexerState :=
    ⟨s.buffer ++ [c], s.totalIndexed, s.totalFailed, s.totalChunks, s.batchNumber,
      s.allErrors, s.oracleIdx, s.flushLog⟩
  if batchSize ≤ s'.buffer.length then flushBuffer oracle s' else s'

/-- `flush()`: drain a non-empty remainder buffer. -/
def flushOp (oracle : Nat → IndexResult) (s : IndexerState) : IndexerState :=
  if 0 < s.buffer.length then flushBuffer oracle s else s

/-- The public operations of the indexer. -/
inductive IndexerOp where
  | add : ScrapedContent → IndexerOp
  | addMultiple : List ScrapedContent → IndexerOp
  | flush : IndexerOp
deriving DecidableEq

/-- Run one public operation (`addMultiple` is a sequential `add` of
each element, as in the code). -/
def runOp (oracle : Nat → IndexResult) (batchSize : Nat) (s : IndexerState) :
    IndexerOp → IndexerState
  | .add c => addOp oracle batchSize s c
  | .addMultiple cs => cs.foldl (addOp oracle batchSize) s
  | .flush => flushOp oracle s

/-- Run a sequence of public operations from a given state. -/
def runOps (oracle : Nat → IndexResult) (batchSize : Nat) (s : IndexerState)
    (ops : List IndexerOp) : IndexerState :=
  ops.foldl (runOp oracle batchSize) s

/-- The number of documents passed to `add`/`addMultiple` by a sequence
of operations. -/
def docsPassed : List IndexerOp → Nat
  | [] => 0
  | .add _ :: rest => 1 + docsPassed rest
  | .addMultiple cs :: rest => cs.length + docsPassed rest
  | .flush :: rest => docsPassed rest

/-- The record returned by `getStats()`. -/
structure IndexerStats where
  totalIndexed : Nat
  totalFailed : Nat
  totalChunks : Nat
  batchCount : Nat
  errors : List (List Char)
  pendingCount : Nat
deriving DecidableEq

/-- `getStats()`. -/
def getStats (s : IndexerState) : IndexerStats :=
  ⟨s.totalIndexed, s.totalFailed, s.totalChunks, s.batchNumber, s.allErrors, s.buffer.length⟩

/-- The cumulative counters plus the pending buffer size; the quantity
conserved by every indexer operation except `add`, which increases it by
one. -/
def countersSum (s : IndexerState) : Nat :=
  s.totalIndexed + s.totalFailed + s.buffer.length

/-- A sample per-document oracle: every `indexContent` call succeeds
with one chunk. -/
def oracle0 : Nat → IndexResult := fun _ => ⟨true, 1, none⟩

/-- A sample scraped document (content irrelevant to the batch
bookkeeping of the indexer). -/
def doc0 : ScrapedContent := ⟨['u'], ['t'], ['c'], none, 0, none⟩

/-- A sample document whose combined text is too short to chunk. -/
def docShort : ScrapedContent := ⟨['u'], ['t'], ['h', 'i'], none, 0, none⟩

/-- A sample document yielding exactly one chunk. -/
def docOneChunk : ScrapedContent := ⟨['u'], ['t'], List.replicate 60 'a', none, 0, none⟩

/-- A sample document with a description, yielding two chunks at
`chunkSize = 60`, `chunkOverlap = 1`. -/
def docDesc : ScrapedContent := ⟨['u'], ['t'], List.replicate 120 'a', some ['d'], 0, none⟩

/-- A vector-store stub whose every upsert fails with a 500 message. -/
def failUpsert : Nat → Except (List Char) Unit := fun _ => .error ['5', '0', '0']

/-- A vector-store stub whose every upsert succeeds. -/
def okUpsert : Nat → Except (List Char) Unit := fun _ => .ok ()

/-- A text on which the semantic-boundary search overshoots the window:
51 letters followed by `". b"`. -/
def cexChunkInput : List Char := List.replicate 51 'a' ++ ['.', ' ', 'b']

/-- The per-chunk guarantee of the chunking loop: each emitted chunk is
a contiguous substring of the (trimmed, truncated) text, at least the
minimum viable length, and at most one character longer than the
configured chunk size. -/
def chunkProp (l : List Char) (cs : Nat) (c : List Char) : Prop :=
  (∃ a b, c = jsSlice l a b) ∧ minChunkLength ≤ c.length ∧ c.length ≤ cs + 1

/-! Lemmas about the incremental batch indexer. -/

theorem processBatch_counts (oracle : Nat → IndexResult) :
    ∀ (batch : List ScrapedContent) (cursor : Nat),
      (processBatch oracle batch cursor).indexed + (processBatch oracle batch cursor).failed =
        batch.length := by
  intro batch
  induction batch with
  | nil => intro cursor; rfl
  | cons c rest ih =>
    intro cursor
    have h := ih (cursor + 1)
    simp only [processBatch]
    by_cases hs : (oracle cursor).success
    · simp only [hs, if_true, List.length_cons]
      omega
    · simp only [hs, if_false, Bool.false_eq_true, List.length_cons]
      omega

theorem flushBuffer_countersSum (oracle : Nat → IndexResult) (s : IndexerState) :
    countersSum (flushBuffer oracle s) = countersSum s := by
  unfold flushBuffer
  by_cases hb : s.buffer.isEmpty
  · simp [hb]
  · have h := processBatch_counts oracle s.buffer s.oracleIdx
    simp only [hb, if_false, Bool.false_eq_true, countersSum]
    simp only [List.length_nil]
    omega

theorem addOp_countersSum (oracle : Nat → IndexResult) (bs : Nat) (s : IndexerState)
    (c : ScrapedContent) : countersSum (addOp oracle bs s c) = countersSum s + 1 := by
  unfold addOp
  by_cases h : bs ≤ s.buffer.length + 1
  · simp only [List.length_append, List.length_cons, List.length_nil, h, if_true]
    rw [flushBuffer_countersSum]
    simp [countersSum]
    omega
  · simp only [List.length_append, List.length_cons, List.length_nil, h, if_false]
    simp [countersSum]
    omega

theorem foldl_addOp_countersSum (oracle : Nat → IndexResult) (bs : Nat) :
    ∀ (cs : List ScrapedContent) (s : IndexerState),
      countersSum (cs.foldl (addOp oracle bs) s) = countersSum s + cs.length := by
  intro cs
  induction cs with
  | nil => intro s; simp
  | cons c rest ih =>
    intro s
    simp only [List.foldl_cons, List.length_cons]
    rw [ih, addOp_countersSum]
    omega

theorem runOp_countersSum (oracle : Nat → IndexResult) (bs : Nat) (s : IndexerState) :
    ∀ op : IndexerOp, countersSum (runOp oracle bs s op) = countersSum s + docsPassed [op]
  | .add c => by simp [runOp, addOp_countersSum, docsPassed]
  | .addMultiple cs => by simp [runOp, foldl_addOp_countersSum, docsPassed]
  | .flush => by
    simp only [runOp, flushOp, docsPassed]
    by_cases h : 0 < s.buffer.length
    · simp [h, flushBuffer_countersSum]
    · simp [h]

theorem runOps_countersSum (oracle : Nat → IndexResult) (bs : Nat) :
    ∀ (ops : List IndexerOp) (s : IndexerState),
      countersSum (runOps oracle bs s ops) = countersSum s + docsPassed ops := by
  intro ops
  induction ops with
  | nil => intro s; simp [runOps, docsPassed]
  | cons op rest ih =>
    intro s
    have h1 := runOp_countersSum oracle bs s op
    have h2 := ih (runOp oracle bs s op)
    simp only [runOps, List.foldl_cons] at h2 ⊢
    rw [h2, h1]
    cases op <;> simp [docsPassed] <;> omega

theorem flushBuffer_batchNumber (oracle : Nat → IndexResult) (s : IndexerState)
    (h : s.batchNumber = s.flushLog.length) :
    (flushBuffer oracle s).batchNumber = (flushBuffer oracle s).flushLog.length := by
  unfold flushBuffer
  by_cases hb : s.buffer.isEmpty
  · simpa [hb] using h
  · simp [hb, h]

theorem addOp_batchNumber (oracle : Nat → IndexResult) (bs : Nat) (s : IndexerState)
    (c : ScrapedContent) (h : s.batchNumber = s.flushLog.length) :
    (addOp oracle bs s c).batchNumber = (addOp oracle bs s c).flushLog.length := by
  unfold addOp
  by_cases hth : bs ≤ s.buffer.length + 1
  · simp only [List.length_append, List.length_cons, List.length_nil, hth, if_true]
    exact flushBuffer_batchNumber oracle _ h
  · simpa [hth] using h

theorem foldl_addOp_batchNumber (oracle : Nat → IndexResult) (bs : Nat) :
    ∀ (cs : List ScrapedContent) (s : IndexerState), s.batchNumber = s.flushLog.length →
      (cs.foldl (addOp oracle bs) s).batchNumber = (cs.foldl (addOp oracle bs) s).flushLog.length := by
  intro cs
  induction cs with
  | nil => intro s h; simpa using h
  | cons c rest ih =>
    intro s h
    simp only [List.foldl_cons]
    exact ih _ (addOp_batchNumber oracle bs s c h)

theorem runOp_batchNumber (oracle : Nat → IndexResult) (bs : Nat) (s : IndexerState)
    (h : s.batchNumber = s.flushLog.length) :
    ∀ op : IndexerOp, (runOp oracle bs s op).batchNumber = (runOp oracle bs s op).flushLog.length
  | .add c => addOp_batchNumber oracle bs s c h
  | .addMultiple cs => foldl_addOp_batchNumber oracle bs cs s h
  | .flush => by
    simp only [runOp, flushOp]
    by_cases hb : 0 < s.buffer.length
    · simp only [hb, if_true]
      exact flushBuffer_batchNumber oracle s h
    · simpa [hb] using h

theorem runOps_batchNumber (oracle : Nat → IndexResult) (bs : Nat) :
    ∀ (ops : List IndexerOp) (s : IndexerState), s.batchNumber = s.flushLog.length →
      (runOps oracle bs s ops).batchNumber = (runOps oracle bs s ops).flushLog.length := by
  intro ops
  induction ops with
  | nil => intro s h; simpa [runOps] using h
  | cons op rest ih =>
    intro s h
    simp only [runOps, List.foldl_cons] at ih ⊢
    exact ih _ (runOp_batchNumber oracle bs s h op)

/-- C2: at every point in the lifetime of an `IncrementalBatchIndexer`
instance - after any sequence of `add`, `addMultiple` and `flush` calls,
for any per-document outcomes and any batch size - the cumulative
counters satisfy `totalIndexed + totalFailed ≤` the number of documents
passed to `add`/`addMultiple` so far. -/
theorem indexer_counters_bounded (oracle : Nat → IndexResult) (batchSize : Nat)
    (ops : List IndexerOp) :
    (runOps oracle batchSize initialState ops).totalIndexed +
      (runOps oracle batchSize initialState ops).totalFailed ≤ docsPassed ops := by
  have h := runOps_countersSum oracle batchSize ops initialState
  rw [show countersSum initialState = 0 from rfl] at h
  simp only [countersSum] at h
  omega

/-- C3 (counterexample): after a single `add` with the default batch
size 5, `getStats().totalIndexed + totalFailed` is 0, but one document
has been passed in - the claimed equality fails while a document is
still pending in the buffer. -/
theorem indexer_counters_not_exact :
    ¬ ((getStats (runOps oracle0 5 initialState [.add doc0])).totalIndexed +
        (getStats (runOps oracle0 5 initialState [.add doc0])).totalFailed =
        docsPassed [.add doc0]) := by decide

/-- C3 (amended): after any sequence of `add`/`flush` calls,
`getStats().totalIndexed + totalFailed` equals the number of documents
passed in so far minus the still-pending (un-flushed) documents -
`totalIndexed + totalFailed + pendingCount = docsPassed` - so the
claimed equality holds exactly when the buffer is empty (for example
after a final `flush()`); and `getStats().batchCount` equals the number
of flushes performed (one `BatchProgress` is logged per flush). -/
theorem indexer_counters_exact (oracle : Nat → IndexResult) (batchSize : Nat)
    (ops : List IndexerOp) :
    (getStats (runOps oracle batchSize initialState ops)).totalIndexed +
        (getStats (runOps oracle batchSize initialState ops)).totalFailed +
        (getStats (runOps oracle batchSize initialState ops)).pendingCount =
      docsPassed ops ∧
    (getStats (runOps oracle batchSize initialState ops)).batchCount =
      (runOps oracle batchSize initialState ops).flushLog.length := by
  constructor
  · have h := runOps_countersSum oracle batchSize ops initialState
    rw [show countersSum initialState = 0 from rfl] at h
    simp only [countersSum] at h
    simp only [getStats]
    omega
  · exact runOps_batchNumber oracle batchSize ops initialState rfl

/-! Lemmas for the batch-threshold behaviour of `add`. -/

theorem foldl_addOp_below (oracle : Nat → IndexResult) (bs : Nat) :
    ∀ (docs : List ScrapedContent) (s : IndexerState), s.buffer.length + docs.length < bs →
      docs.foldl (addOp oracle bs) s =
        ⟨s.buffer ++ docs, s.totalIndexed, s.totalFailed, s.totalChunks, s.batchNumber,
          s.allErrors, s.oracleIdx, s.flushLog⟩ := by
  intro docs
  induction docs with
  | nil => intro s h; simp
  | cons d rest ih =>
    intro s h
    simp only [List.length_cons] at h
    have hstep : addOp oracle bs s d =
        ⟨s.buffer ++ [d], s.totalIndexed, s.totalFailed, s.totalChunks, s.batchNumber,
          s.allErrors, s.oracleIdx, s.flushLog⟩ := by
      unfold addOp
      have : ¬ (bs ≤ s.buffer.length + 1) := by omega
      simp [this]
    simp only [List.foldl_cons, hstep]
    rw [ih]
    · simp
    · simp only [List.length_append, List.length_cons, List.length_nil]
      omega

theorem foldl_addOp_reach (oracle : Nat → IndexResult) (bs : Nat) :
    ∀ (docs : List ScrapedContent) (s : IndexerState), docs ≠ [] →
      s.buffer.length + docs.length = bs →
      docs.foldl (addOp oracle bs) s =
        flushBuffer oracle
          ⟨s.buffer ++ docs, s.totalIndexed, s.totalFailed, s.totalChunks, s.batchNumber,
            s.allErrors, s.oracleIdx, s.flushLog⟩ := by
  intro docs
  induction docs with
  | nil => intro s h; exact absurd rfl h
  | cons d rest ih =>
    intro s _ hlen
    simp only [List.length_cons] at hlen
    cases rest with
    | nil =>
      simp only [List.foldl_cons, List.foldl_nil]
      unfold addOp
      have hth : bs ≤ s.buffer.length + 1 := by
        simp only [List.length_nil] at hlen
        omega
      simp [hth]
    | cons d' rest' =>
      simp only [List.length_cons] at hlen
      have hlt : ¬ (bs ≤ s.buffer.length + 1) := by omega
      have hstep : addOp oracle bs s d =
          ⟨s.buffer ++ [d], s.totalIndexed, s.totalFailed, s.totalChunks, s.batchNumber,
            s.allErrors, s.oracleIdx, s.flushLog⟩ := by
        unfold addOp
        simp [hlt]
      have hrec := ih
        ⟨s.buffer ++ [d], s.totalIndexed, s.totalFailed, s.totalChunks, s.batchNumber,
          s.allErrors, s.oracleIdx, s.flushLog⟩
        (by simp)
        (by simp only [List.length_append, List.length_cons, List.length_nil]; omega)
      rw [List.foldl_cons, hstep, hrec]
      simp

theorem runOps_map_add (oracle : Nat → IndexResult) (bs : Nat) (docs : List ScrapedContent)
    (s : IndexerState) :
    runOps oracle bs s (docs.map IndexerOp.add) = docs.foldl (addOp oracle bs) s := by
  simp only [runOps, List.foldl_map]
  rfl

/-- C4: for an `IncrementalBatchIndexer` with batch size `batchSize ≥ 1`
and any per-document outcomes, calling `add` exactly `batchSize` times
triggers exactly one flush whose delivered `BatchProgress` has
`batchNumber = 1`; calling `add` only `batchSize - 1` times triggers
zero flushes, until an explicit `flush()` (meaningful for
`batchSize ≥ 2`) performs exactly one. -/
theorem batch_threshold (oracle : Nat → IndexResult) (batchSize : Nat)
    (docs docs' : List ScrapedContent) (hbs : 1 ≤ batchSize)
    (hlen : docs.length = batchSize) (hlen' : docs'.length = batchSize - 1) :
    (runOps oracle batchSize initialState (docs.map IndexerOp.add)).flushLog.map
        BatchProgress.batchNumber = [1] ∧
    (runOps oracle batchSize initialState (docs'.map IndexerOp.add)).flushLog = [] ∧
    (2 ≤ batchSize →
      (runOps oracle batchSize initialState
          (docs'.map IndexerOp.add ++ [IndexerOp.flush])).flushLog.map
        BatchProgress.batchNumber = [1]) := by
  have hne : docs ≠ [] := by
    intro h
    rw [h] at hlen
    simp at hlen
    omega
  have hbelow : docs'.foldl (addOp oracle batchSize) initialState =
      ⟨docs', 0, 0, 0, 0, [], 0, []⟩ := by
    have := foldl_addOp_below oracle batchSize docs' initialState
      (by simp only [initialState, List.length_nil]; omega)
    simpa [initialState] using this
  refine ⟨?_, ?_, ?_⟩
  · rw [runOps_map_add]
    rw [foldl_addOp_reach oracle batchSize docs initialState hne
      (by simp only [initialState, List.length_nil]; omega)]
    have hb : ((⟨[] ++ docs, 0, 0, 0, 0, [], 0, []⟩ : IndexerState)).buffer.isEmpty = false := by
      simp [List.isEmpty_iff, hne]
    unfold flushBuffer
    simp only [initialState]
    rw [hb]
    simp
  · rw [runOps_map_add, hbelow]
  · intro h2
    have hne' : docs' ≠ [] := by
      intro h
      rw [h] at hlen'
      simp at hlen'
      omega
    have hsplit : runOps oracle batchSize initialState
        (docs'.map IndexerOp.add ++ [IndexerOp.flush]) =
        flushOp oracle (runOps oracle batchSize initialState (docs'.map IndexerOp.add)) := by
      simp only [runOps, List.foldl_append, List.foldl_cons, List.foldl_nil]
      rfl
    rw [hsplit, runOps_map_add, hbelow]
    unfold flushOp
    have hpos : 0 < ((⟨docs', 0, 0, 0, 0, [], 0, []⟩ : IndexerState)).buffer.length := by
      simp [List.length_pos, hne']
    rw [if_pos hpos]
    unfold flushBuffer
    have hb : ((⟨docs', 0, 0, 0, 0, [], 0, []⟩ : IndexerState)).buffer.isEmpty = false := by
      simp [List.isEmpty_iff, hne']
    rw [hb]
    simp

/-! Lemmas about the per-document content indexer. -/

theorem runUpsertLoop_first_error (upsert : Nat → Except (List Char) Unit) :
    ∀ (n i k : Nat) (e : List Char), k < n → (∀ j, j < k → upsert (i + j) = .ok ()) →
      upsert (i + k) = .error e →
      runUpsertLoop upsert i n = (some e, List.range' i (k + 1)) := by
  intro n
  induction n with
  | zero => intro i k e hk; omega
  | succ m ih =>
    intro i k e hk hok herr
    cases k with
    | zero =>
      simp only [Nat.add_zero] at herr
      simp [runUpsertLoop, herr, List.range']
    | succ k' =>
      have h0 : upsert i = .ok () := by
        have := hok 0 (by omega)
        simpa using this
      have hrec := ih (i + 1) k' e (by omega)
        (fun j hj => by
          have := hok (j + 1) (by omega)
          simpa [Nat.add_assoc, Nat.add_comm 1 j] using this)
        (by simpa [Nat.add_assoc, Nat.add_comm 1 k'] using herr)
      simp only [runUpsertLoop, h0, hrec]
      simp [List.range']

/-- C6: if the upsert of chunk `i` of a document raises (for example a
non-2xx response such as 500, or the 30-second timeout) while all
earlier chunks succeeded, then `indexContent` attempts exactly chunks
`0..i` - no later chunk of that document - and returns
`success: false, chunksIndexed: 0` with the captured error message;
the total return type records that it does not itself raise. -/
theorem index_content_aborts_on_error (upsert : Nat → Except (List Char) Unit)
    (c : ScrapedContent) (brand : List Char) (chunkSize chunkOverlap i : Nat) (e : List Char)
    (hi : i < (buildVectors c brand chunkSize chunkOverlap).length)
    (hok : ∀ j, j < i → upsert j = .ok ())
    (herr : upsert i = .error e) :
    runIndexContent upsert c brand chunkSize chunkOverlap =
      (⟨false, 0, some e⟩, List.range (i + 1)) := by
  unfold runIndexContent
  have hn : ¬ ((buildVectors c brand chunkSize chunkOverlap).length = 0) := by omega
  rw [if_neg hn]
  have hloop := runUpsertLoop_first_error upsert
    (buildVectors c brand chunkSize chunkOverlap).length 0 i e hi
    (fun j hj => by simpa using hok j hj)
    (by simpa using herr)
  rw [hloop]
  rw [List.range_eq_range']

/-- C7: a document whose combined description and content yields zero
chunks is reported as `success: true, chunksIndexed: 0, error: none`,
with no upsert attempted; the total return type records that nothing is
raised. -/
theorem index_content_zero_chunks (upsert : Nat → Except (List Char) Unit)
    (c : ScrapedContent) (brand : List Char) (chunkSize chunkOverlap : Nat)
    (h : chunkContent (fullContentOf c) chunkSize chunkOverlap = []) :
    runIndexContent upsert c brand chunkSize chunkOverlap = (⟨true, 0, none⟩, []) := by
  unfold runIndexContent buildVectors
  simp [h]

/-- C8: chunking and chunk-id generation are deterministic - they are
functions of their inputs alone, so equal inputs give byte-identical
chunk lists, equal vector-record id lists, and equal chunk ids. -/
theorem chunking_deterministic :
    (∀ (c₁ c₂ : List Char) (cs₁ cs₂ co₁ co₂ : Nat), c₁ = c₂ → cs₁ = cs₂ → co₁ = co₂ →
      chunkContent c₁ cs₁ co₁ = chunkContent c₂ cs₂ co₂) ∧
    (∀ (d₁ d₂ : ScrapedContent) (b : List Char) (cs co : Nat), d₁ = d₂ →
      (buildVectors d₁ b cs co).map VectorRecord.id =
        (buildVectors d₂ b cs co).map VectorRecord.id) ∧
    (∀ (u₁ u₂ b : List Char) (i : Nat), u₁ = u₂ →
      generateChunkId u₁ i b = generateChunkId u₂ i b) := by
  refine ⟨?_, ?_, ?_⟩
  · intro c₁ c₂ cs₁ cs₂ co₁ co₂ h1 h2 h3
    rw [h1, h2, h3]
  · intro d₁ d₂ b cs co h
    rw [h]
  · intro u₁ u₂ b i h
    rw [h]

/-- Witness for C8 at concrete inputs. -/
theorem chunking_deterministic_witness :
    chunkContent ['a', 'b'] 1000 200 = chunkContent ['a', 'b'] 1000 200 ∧
    generateChunkId ['a'] 0 ['b'] = generateChunkId ['a'] 0 ['b'] :=
  ⟨chunking_deterministic.1 ['a', 'b'] ['a', 'b'] 1000 1000 200 200 rfl rfl rfl,
    chunking_deterministic.2.2 ['a'] ['a'] ['b'] 0 rfl⟩

/-- C10: chunk ids are not injective in the URL - the sanitizing
replace maps every non-alphanumeric character to `-`, so two distinct
URLs with the same brand slug and chunk index share one id (truncation
to 50 characters causes further collisions). -/
theorem chunk_ids_collide :
    ∃ (u₁ u₂ b : List Char) (i : Nat),
      u₁ ≠ u₂ ∧ generateChunkId u₁ i b = generateChunkId u₂ i b :=
  ⟨['a', '.', 'b'], ['a', '/', 'b'], ['x'], 0, by decide, by decide⟩

set_option maxRecDepth 4000 in
/-- C9 (counterexample): a two-chunk document with description `"d"`
carries that description in the metadata of both chunks - the
`if (content.description)` assignment is executed for every chunk, not
only the first - so a chunk with `chunkIndex = 1` does carry a
description. -/
theorem chunk_metadata_description_every_chunk :
    (buildVectors docDesc ['b'] 60 1).map
      (fun v => (v.metadata.chunkIndex, v.metadata.description)) =
      [(0, some ['d']), (1, some ['d'])] := by decide

/-- C9 (amended): the metadata of every chunk carries `url`, `title`,
`brandSlug`, its own `chunkIndex`, `totalChunks` and `timestamp`; the
capped image list and image count appear on the first chunk only
(`chunkIndex > 0` carries neither); and `description` appears in the
metadata of every chunk whenever the description of the document is a
non-empty string (not only on the first). -/
theorem chunk_metadata_fields (c : ScrapedContent) (brand : List Char)
    (chunkSize chunkOverlap k : Nat)
    (h : k < (buildVectors c brand chunkSize chunkOverlap).length) :
    ((buildVectors c brand chunkSize chunkOverlap).get ⟨k, h⟩).metadata.url = c.url ∧
    ((buildVectors c brand chunkSize chunkOverlap).get ⟨k, h⟩).metadata.title = c.title ∧
    ((buildVectors c brand chunkSize chunkOverlap).get ⟨k, h⟩).metadata.brandSlug = brand ∧
    ((buildVectors c brand chunkSize chunkOverlap).get ⟨k, h⟩).metadata.chunkIndex = k ∧
    ((buildVectors c brand chunkSize chunkOverlap).get ⟨k, h⟩).metadata.totalChunks =
      (buildVectors c brand chunkSize chunkOverlap).length ∧
    ((buildVectors c brand chunkSize chunkOverlap).get ⟨k, h⟩).metadata.timestamp =
      c.timestamp ∧
    (0 < k →
      ((buildVectors c brand chunkSize chunkOverlap).get ⟨k, h⟩).metadata.images = none ∧
      ((buildVectors c brand chunkSize chunkOverlap).get ⟨k, h⟩).metadata.imageCount = none) ∧
    ((buildVectors c brand chunkSize chunkOverlap).get ⟨k, h⟩).metadata.description =
      (match c.description with
        | some d => if d.isEmpty then none else some d
        | none => none) := by
  have hk : k < (chunkContent (fullContentOf c) chunkSize chunkOverlap).length := by
    simpa [buildVectors] using h
  have hget : (buildVectors c brand chunkSize chunkOverlap).get ⟨k, h⟩ =
      buildVector c brand k (chunkContent (fullContentOf c) chunkSize chunkOverlap).length
        ((chunkContent (fullContentOf c) chunkSize chunkOverlap).get ⟨k, hk⟩) := by
    simp [buildVectors, List.get_eq_getElem]
  rw [hget]
  refine ⟨rfl, rfl, rfl, rfl, ?_, rfl, ?_, ?_⟩
  · simp only [buildVectors, List.length_mapIdx]
    rfl
  · intro hk0
    simp only [buildVector, buildMetadata]
    cases himg : c.images with
    | none => exact ⟨rfl, rfl⟩
    | some l =>
      have hcond : ¬ (k = 0 ∧ 0 < l.length) := by
        rintro ⟨h0, _⟩
        omega
      exact ⟨if_neg hcond, if_neg hcond⟩
  · simp only [buildVector, buildMetadata]

/-- Witness for C9 at a concrete single-chunk document. -/
theorem chunk_metadata_fields_witness :
    ((buildVectors docOneChunk ['b'] 1000 200).get
        ⟨0, (by decide : 0 < (buildVectors docOneChunk ['b'] 1000 200).length)⟩).metadata.chunkIndex
      = 0 :=
  (chunk_metadata_fields docOneChunk ['b'] 1000 200 0 (by decide)).2.2.2.1

/-! Lemmas about JavaScript trim and slice. -/

theorem dropWhile_eq_drop {α : Type} (p : α → Bool) :
    ∀ l : List α, ∃ k, l.dropWhile p = l.drop k := by
  intro l
  induction l with
  | nil => exact ⟨0, rfl⟩
  | cons a t ih =>
    by_cases h : p a
    · obtain ⟨k, hk⟩ := ih
      exact ⟨k + 1, by simp [List.dropWhile_cons_of_pos h, hk]⟩
    · exact ⟨0, by simp [List.dropWhile_cons_of_neg h]⟩

theorem trimLeft_eq_drop (l : List Char) : ∃ k, trimLeft l = l.drop k :=
  dropWhile_eq_drop isJsWs l

theorem trimRight_eq_take (l : List Char) : ∃ m, trimRight l = l.take m := by
  obtain ⟨k, hk⟩ := dropWhile_eq_drop isJsWs l.reverse
  refine ⟨l.length - k, ?_⟩
  rw [trimRight, hk, List.reverse_drop]
  simp

theorem jsTrim_length_le (l : List Char) : (jsTrim l).length ≤ l.length := by
  have h1 : (trimLeft l).length ≤ l.length := (List.dropWhile_sublist _).length_le
  have h2 : (trimRight (trimLeft l)).length ≤ (trimLeft l).length := by
    rw [trimRight]
    simpa using (List.dropWhile_sublist (l := (trimLeft l).reverse) isJsWs).length_le
  calc (jsTrim l).length = (trimRight (trimLeft l)).length := rfl
    _ ≤ (trimLeft l).length := h2
    _ ≤ l.length := h1

theorem trimRight_length_lt (l : List Char) (c : Char) (hl : l.getLast? = some c)
    (hws : isJsWs c = true) : (trimRight l).length < l.length := by
  have hrev : l.reverse.head? = some c := by rw [List.head?_reverse, hl]
  cases hcase : l.reverse with
  | nil => rw [hcase] at hrev; simp at hrev
  | cons a t =>
    rw [hcase] at hrev
    simp only [List.head?_cons, Option.some.injEq] at hrev
    subst hrev
    rw [trimRight, hcase, List.dropWhile_cons_of_pos hws]
    simp only [List.length_reverse]
    have h1 : (t.dropWhile isJsWs).length ≤ t.length := (List.dropWhile_sublist _).length_le
    have h2 : l.length = t.length + 1 := by
      have := congrArg List.length hcase
      simpa using this
    omega

theorem jsTrim_length_lt (l : List Char) (c : Char) (hl : l.getLast? = some c)
    (hws : isJsWs c = true) : (jsTrim l).length < l.length := by
  rw [jsTrim]
  obtain ⟨k, hk⟩ := trimLeft_eq_drop l
  cases hnil : trimLeft l with
  | nil =>
    have hne : l ≠ [] := by
      intro h
      rw [h] at hl
      simp at hl
    have hz : trimRight [] = [] := rfl
    rw [hz]
    simpa [List.length_pos] using hne
  | cons a t =>
    have hklt : k < l.length := by
      by_contra hge
      rw [List.drop_eq_nil_of_le (by omega)] at hk
      rw [hk] at hnil
      cases hnil
    have hlast : (trimLeft l).getLast? = some c := by
      rw [hk, List.getLast?_drop, if_neg (by omega)]
      exact hl
    have h1 := trimRight_length_lt (trimLeft l) c hlast hws
    have h2 : (trimLeft l).length ≤ l.length := (List.dropWhile_sublist _).length_le
    rw [← hnil]
    omega

theorem jsSlice_length_le (l : List Char) (a b : Nat) : (jsSlice l a b).length ≤ l.length := by
  simp only [jsSlice, List.length_drop, List.length_take]
  omega

theorem jsTrim_jsSlice (l : List Char) (a b : Nat) :
    ∃ u v, jsTrim (jsSlice l a b) = jsSlice l u v := by
  obtain ⟨k, hk⟩ := trimLeft_eq_drop (jsSlice l a b)
  obtain ⟨m, hm⟩ := trimRight_eq_take (trimLeft (jsSlice l a b))
  refine ⟨a + k, min (a + k + m) b, ?_⟩
  rw [jsTrim, hm, hk]
  simp only [jsSlice]
  rw [List.drop_drop, List.take_drop, List.take_take]

/-! Lemmas about the semantic break search. -/

theorem lastIndexOfFrom_some (l sep : List Char) :
    ∀ fr bp : Nat, lastIndexOfFrom l sep fr = some bp → bp ≤ fr ∧ matchAt l sep bp = true := by
  intro fr
  induction fr with
  | zero =>
    intro bp h
    simp only [lastIndexOfFrom] at h
    by_cases hm : matchAt l sep 0
    · rw [if_pos hm] at h
      cases h
      exact ⟨Nat.le_refl 0, hm⟩
    · rw [if_neg hm] at h
      cases h
  | succ i ih =>
    intro bp h
    simp only [lastIndexOfFrom] at h
    by_cases hm : matchAt l sep (i + 1)
    · rw [if_pos hm] at h
      cases h
      exact ⟨Nat.le_refl _, hm⟩
    · rw [if_neg hm] at h
      obtain ⟨h1, h2⟩ := ih bp h
      exact ⟨Nat.le_succ_of_le h1, h2⟩

theorem listStartsWith_append (sep : List Char) :
    ∀ x : List Char, listStartsWith sep x = true → ∃ t, x = sep ++ t := by
  induction sep with
  | nil => intro x _; exact ⟨x, rfl⟩
  | cons c sep' ih =>
    intro x h
    cases x with
    | nil => simp [listStartsWith] at h
    | cons d x' =>
      simp only [listStartsWith, Bool.and_eq_true, beq_iff_eq] at h
      obtain ⟨hcd, hrest⟩ := h
      obtain ⟨t, ht⟩ := ih x' hrest
      exact ⟨t, by rw [ht, hcd]; rfl⟩

theorem matchAt_drop_eq (l sep : List Char) (bp : Nat) (h : matchAt l sep bp = true) :
    ∃ t, l.drop bp = sep ++ t := by
  rw [matchAt] at h
  exact listStartsWith_append sep _ h

theorem matchAt_bound (l sep : List Char) (bp : Nat) (hne : sep ≠ [])
    (h : matchAt l sep bp = true) : bp + sep.length ≤ l.length := by
  obtain ⟨t, ht⟩ := matchAt_drop_eq l sep bp h
  have hlen := congrArg List.length ht
  simp only [List.length_append, List.length_drop] at hlen
  have hpos : 0 < sep.length := List.length_pos.mpr hne
  omega

theorem matchAt_take (l sep : List Char) (bp : Nat) (h : matchAt l sep bp = true) :
    l.take (bp + sep.length) = l.take bp ++ sep := by
  obtain ⟨t, ht⟩ := matchAt_drop_eq l sep bp h
  rw [List.take_add, ht, List.take_left]

theorem jsSlice_break (l sep : List Char) (start bp : Nat) (hsb : start ≤ bp)
    (hble : bp ≤ l.length) (hm : matchAt l sep bp = true) :
    jsSlice l start (bp + sep.length) = (l.take bp).drop start ++ sep := by
  rw [jsSlice, matchAt_take l sep bp hm]
  rw [List.drop_append_of_le_length]
  simp only [List.length_take]
  omega

theorem sep_facts : ∀ sep ∈ SEMANTIC_SEPARATORS,
    sep ≠ [] ∧ sep.length ≤ 2 ∧ ∃ c, sep.getLast? = some c ∧ isJsWs c = true := by decide

theorem findBreakGo_some (l : List Char) (ci cs ce : Nat) :
    ∀ (seps : List (List Char)) (bb : Nat), findBreakGo l ci cs ce seps = some bb →
      ∃ sep ∈ seps, ∃ bp, lastIndexOfFrom l sep ce = some bp ∧
        2 * ci + cs < 2 * bp ∧ bb = bp + sep.length := by
  intro seps
  induction seps with
  | nil =>
    intro bb h
    simp [findBreakGo] at h
  | cons sep rest ih =>
    intro bb h
    simp only [findBreakGo] at h
    cases hli : lastIndexOfFrom l sep ce with
    | some bp =>
      rw [hli] at h
      simp only [] at h
      by_cases hcond : 2 * ci + cs < 2 * bp
      · rw [if_pos hcond] at h
        cases h
        exact ⟨sep, List.mem_cons_self sep rest, bp, hli, hcond, rfl⟩
      · rw [if_neg hcond] at h
        obtain ⟨s', hmem, bp', h1, h2, h3⟩ := ih bb h
        exact ⟨s', List.mem_cons_of_mem _ hmem, bp', h1, h2, h3⟩
    | none =>
      rw [hli] at h
      obtain ⟨s', hmem, bp', h1, h2, h3⟩ := ih bb h
      exact ⟨s', List.mem_cons_of_mem _ hmem, bp', h1, h2, h3⟩

theorem findBreak_some (l : List Char) (start cs ce bb : Nat)
    (h : findBreak l start cs ce = some bb) :
    ∃ sep bp, sep ≠ [] ∧ sep.length ≤ 2 ∧
      (∃ c, sep.getLast? = some c ∧ isJsWs c = true) ∧
      bp ≤ ce ∧ matchAt l sep bp = true ∧ 2 * start + cs < 2 * bp ∧ bb = bp + sep.length := by
  obtain ⟨sep, hmem, bp, hli, hcond, hbb⟩ :=
    findBreakGo_some l start cs ce SEMANTIC_SEPARATORS bb h
  obtain ⟨hne, hle, hws⟩ := sep_facts sep hmem
  obtain ⟨hbp, hmatch⟩ := lastIndexOfFrom_some l sep ce bp hli
  exact ⟨sep, bp, hne, hle, hws, hbp, hmatch, hcond, hbb⟩

theorem computeChunkEnd_le (l : List Char) (start cs : Nat) :
    computeChunkEnd l start cs ≤ l.length := by
  simp only [computeChunkEnd]
  by_cases hlt : min (start + cs) l.length < l.length
  · rw [if_pos hlt]
    split
    next bb hfb =>
      obtain ⟨sep, bp, hne, _, _, _, hmatch, _, hbb⟩ := findBreak_some l start cs _ bb hfb
      have hb := matchAt_bound l sep bp hne hmatch
      by_cases hsb : start < bb
      · rw [if_pos hsb]
        omega
      · rw [if_neg hsb]
        omega
    next hfb => omega
  · rw [if_neg hlt]
    omega

theorem computeChunkEnd_gt (l : List Char) (start cs : Nat) (hcs : 1 ≤ cs)
    (hstart : start < l.length) : start < computeChunkEnd l start cs := by
  simp only [computeChunkEnd]
  by_cases hlt : min (start + cs) l.length < l.length
  · rw [if_pos hlt]
    split
    next bb hfb =>
      by_cases hsb : start < bb
      · rw [if_pos hsb]
        exact hsb
      · rw [if_neg hsb]
        omega
    next hfb => omega
  · rw [if_neg hlt]
    omega

theorem chunk_length_le (l : List Char) (start cs : Nat) :
    (jsTrim (jsSlice l start (computeChunkEnd l start cs))).length ≤ cs + 1 := by
  have hplain : ∀ x : Nat, x ≤ start + cs →
      (jsTrim (jsSlice l start x)).length ≤ cs + 1 := by
    intro x hx
    have h1 := jsTrim_length_le (jsSlice l start x)
    have h2 : (jsSlice l start x).length ≤ x - start := by
      simp only [jsSlice, List.length_drop, List.length_take]
      omega
    omega
  simp only [computeChunkEnd]
  by_cases hlt : min (start + cs) l.length < l.length
  · rw [if_pos hlt]
    split
    next bb hfb =>
      by_cases hsb : start < bb
      · rw [if_pos hsb]
        obtain ⟨sep, bp, hne, hle2, ⟨c, hlast, hws⟩, hbple, hmatch, hcond, hbb⟩ :=
          findBreak_some l start cs _ bb hfb
        have hbound := matchAt_bound l sep bp hne hmatch
        have hsbp : start ≤ bp := by omega
        subst hbb
        rw [jsSlice_break l sep start bp hsbp (by omega) hmatch]
        have hlast2 : ((l.take bp).drop start ++ sep).getLast? = some c := by
          rw [List.getLast?_append, hlast]
          rfl
        have hlt2 := jsTrim_length_lt _ c hlast2 hws
        rw [List.length_append] at hlt2
        have hAlen : ((l.take bp).drop start).length = bp - start := by
          simp only [List.length_drop, List.length_take]
          omega
        rw [hAlen] at hlt2
        omega
      · rw [if_neg hsb]
        exact hplain _ (by omega)
    next hfb => exact hplain _ (by omega)
  · rw [if_neg hlt]
    exact hplain _ (by omega)

theorem chunkLoop_invariant (l : List Char) (cs co : Nat) :
    ∀ (fuel start : Nat) (acc : List (List Char)), (∀ c ∈ acc, chunkProp l cs c) →
      ∀ c ∈ chunkLoop l cs co fuel start acc, chunkProp l cs c := by
  intro fuel
  induction fuel with
  | zero =>
    intro start acc hacc c hc
    rw [chunkLoop] at hc
    exact hacc c hc
  | succ k ih =>
    intro start acc hacc c hc
    by_cases hlt : start < l.length
    · simp only [chunkLoop, if_pos hlt] at hc
      set CE := computeChunkEnd l start cs with hCE
      set ch := jsTrim (jsSlice l start CE) with hch
      have hPch : minChunkLength ≤ ch.length → chunkProp l cs ch := by
        intro h50
        refine ⟨?_, h50, ?_⟩
        · rw [hch]
          exact jsTrim_jsSlice l start CE
        · rw [hch, hCE]
          exact chunk_length_le l start cs
      by_cases h50 : minChunkLength ≤ ch.length
      · simp only [if_pos h50] at hc
        have hacc' : ∀ x ∈ acc ++ [ch], chunkProp l cs x := by
          intro x hx
          rcases List.mem_append.mp hx with hx | hx
          · exact hacc x hx
          · rw [List.mem_singleton.mp hx]
            exact hPch h50
        by_cases hcap : maxChunksPerPage ≤ (acc ++ [ch]).length
        · rw [if_pos hcap] at hc
          exact hacc' c hc
        · rw [if_neg hcap] at hc
          exact ih _ _ hacc' c hc
      · simp only [if_neg h50] at hc
        by_cases hcap : maxChunksPerPage ≤ acc.length
        · rw [if_pos hcap] at hc
          exact hacc c hc
        · rw [if_neg hcap] at hc
          exact ih _ _ hacc c hc
    · simp only [chunkLoop, if_neg hlt] at hc
      exact hacc c hc

theorem chunkLoop_length_le (l : List Char) (cs co : Nat) :
    ∀ (fuel start : Nat) (acc : List (List Char)), acc.length < maxChunksPerPage →
      (chunkLoop l cs co fuel start acc).length ≤ maxChunksPerPage := by
  intro fuel
  induction fuel with
  | zero =>
    intro start acc h
    rw [chunkLoop]
    omega
  | succ k ih =>
    intro start acc h
    by_cases hlt : start < l.length
    · simp only [chunkLoop, if_pos hlt]
      set CE := computeChunkEnd l start cs with hCE
      set ch := jsTrim (jsSlice l start CE) with hch
      by_cases h50 : minChunkLength ≤ ch.length
      · simp only [if_pos h50]
        by_cases hcap : maxChunksPerPage ≤ (acc ++ [ch]).length
        · rw [if_pos hcap]
          simp only [List.length_append, List.length_cons, List.length_nil] at hcap ⊢
          omega
        · rw [if_neg hcap]
          apply ih
          simp only [List.length_append, List.length_cons, List.length_nil] at hcap ⊢
          omega
      · simp only [if_neg h50]
        by_cases hcap : maxChunksPerPage ≤ acc.length
        · rw [if_pos hcap]
          omega
        · rw [if_neg hcap]
          exact ih _ _ h
    · simp only [chunkLoop, if_neg hlt]
      omega

theorem chunkLoop_fuel (l : List Char) (cs co : Nat) (hcs : 1 ≤ cs) :
    ∀ (f₁ f₂ start : Nat) (acc : List (List Char)),
      l.length - start ≤ f₁ → l.length - start ≤ f₂ →
      chunkLoop l cs co f₁ start acc = chunkLoop l cs co f₂ start acc := by
  intro f₁
  induction f₁ with
  | zero =>
    intro f₂ start acc h1 h2
    have hge : ¬ (start < l.length) := by omega
    cases f₂ with
    | zero => rfl
    | succ g => simp only [chunkLoop, if_neg hge]
  | succ k ih =>
    intro f₂ start acc h1 h2
    by_cases hlt : start < l.length
    · cases f₂ with
      | zero => omega
      | succ g =>
        simp only [chunkLoop, if_pos hlt]
        have hgt := computeChunkEnd_gt l start cs hcs hlt
        set CE := computeChunkEnd l start cs with hCE
        set ch := jsTrim (jsSlice l start CE) with hch
        set idx := if CE - co ≤ start then CE else CE - co with hidx
        have hidx_gt : start < idx := by
          by_cases hc2 : CE - co ≤ start
          · rw [hidx, if_pos hc2]
            omega
          · rw [hidx, if_neg hc2]
            omega
        by_cases h50 : minChunkLength ≤ ch.length
        · simp only [if_pos h50]
          by_cases hcap : maxChunksPerPage ≤ (acc ++ [ch]).length
          · simp only [if_pos hcap]
          · simp only [if_neg hcap]
            exact ih g idx (acc ++ [ch]) (by omega) (by omega)
        · simp only [if_neg h50]
          by_cases hcap : maxChunksPerPage ≤ acc.length
          · simp only [if_pos hcap]
          · simp only [if_neg hcap]
            exact ih g idx acc (by omega) (by omega)
    · cases f₂ with
      | zero => simp only [chunkLoop, if_neg hlt]
      | succ g => simp only [chunkLoop, if_neg hlt]

/-- C1 (counterexample): with `chunkSize = 51`, `chunkOverlap = 1`
(so `chunkOverlap < chunkSize`), the input `cexChunkInput` produces a
chunk of length 52 - the semantic-boundary search accepts a separator
occurrence starting exactly at the window end, so the emitted chunk
exceeds the configured chunk size by one character. -/
theorem chunk_exceeds_size :
    (1 : Nat) < 51 ∧ ¬ (∀ c ∈ chunkContent cexChunkInput 51 1, c.length ≤ 51) := by decide

/-- C1 (amended): for every input and every configuration with
`chunkOverlap < chunkSize`, every chunk emitted by `chunkContent` is a
contiguous substring of the trimmed, truncated input, of length at
least the minimum viable length (50) and at most `chunkSize + 1` (the
boundary search may overshoot the window by one punctuation character);
and an input whose trimmed, truncated text is shorter than 50
characters yields exactly zero chunks. -/
theorem chunk_bounds (content : List Char) (cs co : Nat) (hco : co < cs) :
    (∀ c ∈ chunkContent content cs co,
      (∃ a b, c = jsSlice ((jsTrim content).take maxContentLength) a b) ∧
      minChunkLength ≤ c.length ∧ c.length ≤ cs + 1) ∧
    (((jsTrim content).take maxContentLength).length < minChunkLength →
      chunkContent content cs co = []) := by
  constructor
  · intro c hc
    simp only [chunkContent] at hc
    by_cases hfit : ((jsTrim content).take maxContentLength).length ≤ cs
    · rw [if_pos hfit] at hc
      by_cases h50 : minChunkLength ≤ ((jsTrim content).take maxContentLength).length
      · rw [if_pos h50] at hc
        rw [List.mem_singleton] at hc
        subst hc
        refine ⟨⟨0, ((jsTrim content).take maxContentLength).length, ?_⟩, h50, by omega⟩
        simp [jsSlice]
      · rw [if_neg h50] at hc
        exact absurd hc (List.not_mem_nil c)
    · rw [if_neg hfit] at hc
      have hp := chunkLoop_invariant ((jsTrim content).take maxContentLength) cs co
        ((jsTrim content).take maxContentLength).length 0 []
        (by intro x hx; exact absurd hx (List.not_mem_nil x)) c hc
      simpa [chunkProp] using hp
  · intro hshort
    simp only [chunkContent]
    by_cases hfit : ((jsTrim content).take maxContentLength).length ≤ cs
    · rw [if_pos hfit, if_neg (by omega)]
    · rw [if_neg hfit]
      rw [List.eq_nil_iff_forall_not_mem]
      intro c hc
      have hp := chunkLoop_invariant ((jsTrim content).take maxContentLength) cs co
        ((jsTrim content).take maxContentLength).length 0 []
        (by intro x hx; exact absurd hx (List.not_mem_nil x)) c hc
      obtain ⟨⟨a, b, hab⟩, h50, _⟩ := hp
      have hle : c.length ≤ ((jsTrim content).take maxContentLength).length := by
        rw [hab]
        exact jsSlice_length_le _ a b
      simp only [minChunkLength] at h50 hshort
      omega

/-- Witness for C1 at concrete inputs: `chunkOverlap = 1 < 1000 =
chunkSize`, and the two-character input `"hi"` yields zero chunks. -/
theorem chunk_bounds_witness :
    (1 : Nat) < 1000 ∧ chunkContent ['h', 'i'] 1000 1 = [] :=
  ⟨by decide, (chunk_bounds ['h', 'i'] 1000 1 (by decide)).2 (by decide)⟩

/-- C5: for every input and every configuration with
`chunkOverlap < chunkSize`, `chunkContent` emits at most
`maxChunksPerPage` (50) chunks, stopping early when the cap is
reached; and the window-advance rule makes the chunking loop terminate:
its result is independent of the fuel once the fuel covers the
remaining distance to the end of the text (so the fixed fuel
`chunkContent` passes is always sufficient). -/
theorem chunking_terminates (content : List Char) (cs co : Nat) (hco : co < cs) :
    (chunkContent content cs co).length ≤ maxChunksPerPage ∧
    (∀ (l : List Char) (fuel₁ fuel₂ start : Nat) (acc : List (List Char)),
      l.length - start ≤ fuel₁ → l.length - start ≤ fuel₂ →
      chunkLoop l cs co fuel₁ start acc = chunkLoop l cs co fuel₂ start acc) := by
  have hcs : 1 ≤ cs := by omega
  constructor
  · simp only [chunkContent]
    by_cases hfit : ((jsTrim content).take maxContentLength).length ≤ cs
    · rw [if_pos hfit]
      by_cases h50 : minChunkLength ≤ ((jsTrim content).take maxContentLength).length
      · rw [if_pos h50]
        simp [maxChunksPerPage]
      · rw [if_neg h50]
        simp [maxChunksPerPage]
    · rw [if_neg hfit]
      exact chunkLoop_length_le _ cs co _ 0 [] (by simp [maxChunksPerPage])
  · intro l f₁ f₂ start acc h1 h2
    exact chunkLoop_fuel l cs co hcs f₁ f₂ start acc h1 h2

/-- Witness for C5 at concrete inputs. -/
theorem chunking_terminates_witness :
    (chunkContent (List.replicate 60 'a') 1000 200).length ≤ maxChunksPerPage :=
  (chunking_terminates (List.replicate 60 'a') 1000 200 (by decide)).1

/-- Witness for C4 at concrete inputs: batch size 2, two then one
document. -/
theorem batch_threshold_witness :
    (runOps oracle0 2 initialState ([doc0, doc0].map IndexerOp.add)).flushLog.map
        BatchProgress.batchNumber = [1] ∧
    (runOps oracle0 2 initialState ([doc0].map IndexerOp.add)).flushLog = [] ∧
    (2 ≤ 2 →
      (runOps oracle0 2 initialState
          ([doc0].map IndexerOp.add ++ [IndexerOp.flush])).flushLog.map
        BatchProgress.batchNumber = [1]) :=
  batch_threshold oracle0 2 [doc0, doc0] [doc0] (by decide) (by decide) (by decide)

/-- Witness for C6: a one-chunk document whose single upsert returns a
500 error. -/
theorem index_content_aborts_on_error_witness :
    runIndexContent failUpsert docOneChunk ['b'] 1000 200 =
      (⟨false, 0, some ['5', '0', '0']⟩, List.range 1) :=
  index_content_aborts_on_error failUpsert docOneChunk ['b'] 1000 200 0 ['5', '0', '0']
    (by decide) (fun j hj => absurd hj (Nat.not_lt_zero j)) rfl

/-- Witness for C7: a document whose text is too short to chunk. -/
theorem index_content_zero_chunks_witness :
    runIndexContent okUpsert docShort ['b'] 1000 200 = (⟨true, 0, none⟩, []) :=
  index_content_zero_chunks okUpsert docShort ['b'] 1000 200 (by decide)

end Scraper
